import Mathlib

/-!
Verification of the `libslm-binary` fixed-width binary value type
(`src/index.ts`, classes `binary` / `bit` / `nibble` / `byte` / `word` /
`dword`).

The TypeScript class stores one boolean per bit (index 0 = most significant
bit, index `length - 1` = least significant bit), plus a `useSigned` flag,
and derives masks from the width.  JavaScript numbers are exact integers in
the ranges exercised here, so they are modelled as `ℤ`; JavaScript bitwise
operators coerce through ToInt32/ToUint32 (value mod 2^32), which is
modelled explicitly.
-/

namespace LibslmBinary

/-- JS ToUint32 applied to an exact integer: the value modulo `2^32`,
as a natural number. -/
def toUint32 (n : ℤ) : ℕ := (n % (2:ℤ)^32).toNat

/-- JS ToInt32 applied to an exact integer: the value modulo `2^32`,
brought into `[-2^31, 2^31)`. -/
def toInt32 (n : ℤ) : ℤ :=
  let m := n % (2:ℤ)^32
  if m < 2^31 then m else m - 2^32

/-- JS bitwise `&` on exact integers. -/
def jsAnd (a b : ℤ) : ℤ := toInt32 ((Nat.land (toUint32 a) (toUint32 b) : ℕ) : ℤ)

/-- JS bitwise `|` on exact integers. -/
def jsOr (a b : ℤ) : ℤ := toInt32 ((Nat.lor (toUint32 a) (toUint32 b) : ℕ) : ℤ)

/-- JS bitwise `^` on exact integers. -/
def jsXor (a b : ℤ) : ℤ := toInt32 ((Nat.xor (toUint32 a) (toUint32 b) : ℕ) : ℤ)

/-- JS `x << 1`, the `mask <<= 1` step used by every bit loop in the source. -/
def jsShl1 (a : ℤ) : ℤ := toInt32 (toInt32 a * 2)

/-- JS `a << b` (shift count is taken mod 32). -/
def jsShl (a b : ℤ) : ℤ := toInt32 (toInt32 a * (2:ℤ) ^ (toUint32 b % 32))

/-- JS `a >> b`: sign-propagating right shift, i.e. floor division of the
ToInt32 value by `2^(b mod 32)`. -/
def jsShr (a b : ℤ) : ℤ := Int.fdiv (toInt32 a) ((2:ℤ) ^ (toUint32 b % 32))

/-- JS `~a`. -/
def jsNot (a : ℤ) : ℤ := -(toInt32 a) - 1

/-- The mask sequence produced by starting from `1` and repeatedly running
the source's `mask <<= 1` loop step: `msk j` is the mask after `j` steps. -/
def msk : ℕ → ℤ
  | 0 => 1
  | j + 1 => jsShl1 (msk j)

/-- The bit storage of a `binary` instance.  `bits` lists the indexed
boolean properties `this[0] … this[length-1]` in order, so index 0 is the
most significant bit; the class invariant `length == number of stored
bits` (established by the constructor and preserved by `reform`) is baked
in by taking `length` to be `bits.length`. -/
structure Binary where
  bits : List Bool
  useSigned : Bool
deriving DecidableEq

/-- The `length` field: the number of bits. -/
def Binary.length (x : Binary) : ℕ := x.bits.length

/-- `this.mask = +('0b' + '1'.repeat(size))`: the all-ones numeric literal,
exact for the widths in scope. -/
def maskVal (size : ℕ) : ℤ := 2 ^ size - 1

/-- `this.decimalMask = this.mask >> 1`. -/
def decimalMask (size : ℕ) : ℤ := jsShr (maskVal size) 1

/-- `this.signedMask = this.mask & this.decimalMask`. -/
def signedMask (size : ℕ) : ℤ := jsAnd (maskVal size) (decimalMask size)

/-- The accumulation loop of the `unsigned` getter.  The source walks
`index` from `length - 1` down to `0` with `mask` starting at `1` and
doubling (`mask <<= 1`) after each bit, adding `mask` for each set bit;
here the list is passed least-significant-bit first. -/
def unsignedAux : List Bool → ℤ → ℤ
  | [], _ => 0
  | b :: rest, mask => (if b then mask else 0) + unsignedAux rest (jsShl1 mask)

/-- The `unsigned` getter. -/
def Binary.unsigned (x : Binary) : ℤ := unsignedAux x.bits.reverse 1

/-- Mathematical positional value of a least-significant-bit-first list of
bits (proof helper, used to characterize the loops above). -/
def bitsVal : List Bool → ℕ
  | [] => 0
  | b :: rest => (if b then 1 else 0) + 2 * bitsVal rest

/-- The `signed` getter:
`if (number & signedMask) number = -signedMask + (number & decimalMask)`. -/
def Binary.signed (x : Binary) : ℤ :=
  let n := x.unsigned
  if jsAnd n (signedMask x.length) ≠ 0 then
    -(signedMask x.length) + jsAnd n (decimalMask x.length)
  else n

/-- `valueOf()` (also the `value` getter): signed or unsigned per the flag. -/
def Binary.valueOf (x : Binary) : ℤ := if x.useSigned then x.signed else x.unsigned

/-- The unsigned branch of `reform`: `this[index] = value & mask ? true :
false`, walking `index` from `length - 1` down to `0` with the doubling
mask.  Produces the bits least-significant first. -/
def reformAuxU : ℕ → ℤ → ℤ → List Bool
  | 0, _, _ => []
  | k + 1, v, mask => decide (jsAnd v mask ≠ 0) :: reformAuxU k v (jsShl1 mask)

/-- The signed branch of `reform`:
`this[index] = value & mask & this.decimalMask ? true : false`. -/
def reformAuxS : ℕ → ℤ → ℤ → ℤ → List Bool
  | 0, _, _, _ => []
  | k + 1, v, mask, dmask =>
      decide (jsAnd (jsAnd v mask) dmask ≠ 0) :: reformAuxS k v (jsShl1 mask) dmask

/-- `reform(value)`: rewrites all `length` bits from the native integer.
In signed mode the per-bit weight is additionally masked with
`decimalMask`, and afterwards `if (value < 0) this[0] = true` forces the
most significant bit. -/
def Binary.reform (x : Binary) (v : ℤ) : Binary :=
  if x.useSigned then
    let base := (reformAuxS x.length v 1 (decimalMask x.length)).reverse
    { x with bits := if v < 0 then base.set 0 true else base }
  else
    { x with bits := (reformAuxU x.length v 1).reverse }

/-- The runtime shapes accepted as a seed/operand, mirroring the dynamic
`typeof`/`Array.isArray` dispatch in `convert`.  String payloads carry the
host's numeric-parse result (`none` models `NaN`), since JS `Number(...)`
parsing itself is a host-runtime service outside this repository. -/
inductive JsValue where
  | null
  | undef
  | bin (b : Binary)
  | num (n : ℤ)
  | bool (b : Bool)
  | str (s : String) (parsed : Option ℤ)
  | boolArr (a : List Bool)
  | numArr (a : List ℤ)
  | strArr (a : List (String × Option ℤ))
deriving DecidableEq

/-- The boolean-array accumulation loop of `convert`:
`value += (data[index]? 1 : 0) & mask` with the doubling mask, walking the
array from its last element; the list is passed last-element-first. -/
def convBoolAux : List Bool → ℤ → ℤ
  | [], _ => 0
  | b :: rest, mask => jsAnd (if b then 1 else 0) mask + convBoolAux rest (jsShl1 mask)

/-- The number-array accumulation loop of `convert`:
`value += data[index] & mask`; the list is passed last-element-first. -/
def convNumAux : List ℤ → ℤ → ℤ
  | [], _ => 0
  | n :: rest, mask => jsAnd n mask + convNumAux rest (jsShl1 mask)

/-- `binary.convert`: normalizes any accepted seed shape to a native
integer, or throws.  Errors carry the source's message strings. -/
def convert : JsValue → Except String ℤ
  | .null => .error "binary.convert: Does not support, convertion of value null, to a binary."
  | .undef => .error "binary.convert: Does not support, convertion of value undefined, to a binary."
  | .bin b => .ok b.valueOf
  | .num n => .ok n
  | .bool b => .ok (if b then 1 else 0)
  | .str s parsed =>
      if s.length = 0 then
        .error "binary.convert: Does not support, convertion of empty string, to a binary."
      else
        match parsed with
        | none => .error "binary.convert: Does not support, convertion of non-numeric string, to a binary."
        | some n => .ok n
  | .boolArr a =>
      if a.length = 0 then
        .error "binary.convert: Does not support, convertion of empty array, to a binary."
      else .ok (convBoolAux a.reverse 1)
  | .numArr a =>
      if a.length = 0 then
        .error "binary.convert: Does not support, convertion of empty array, to a binary."
      else .ok (convNumAux a.reverse 1)
  | .strArr a =>
      if a.length = 0 then
        .error "binary.convert: Does not support, convertion of empty array, to a binary."
      else if a.all (fun p => p.2.isSome) then
        .ok (convNumAux ((a.map (fun p => p.2.getD 0)).reverse) 1)
      else .error "binary.convert: Does not support, convertion of array content, to a binary."

/-- The `binary` constructor.  `value = none` models the seed argument
being absent (`arguments[1] === undefined`); `useSigned = none` models the
third argument being absent, in which case the flag keeps its initializer
`false`.  The constructor first rejects null/undefined seeds, initializes
all bits to `false`, then converts the seed and reforms. -/
def binaryCtor (size : ℕ) (value : Option JsValue) (useSigned : Option Bool) :
    Except String Binary :=
  match value with
  | none => .error "binary: given value can't be undefined."
  | some .null => .error "binary: given value can't be null."
  | some .undef => .error "binary: given value can't be undefined."
  | some v =>
      let flag := useSigned.getD false
      let x : Binary := ⟨List.replicate size false, flag⟩
      match convert v with
      | .error e => .error e
      | .ok n => .ok (x.reform n)

/-- The `copy` accessor: `new binary(this.length, this)` — note the third
constructor argument is not passed. -/
def Binary.copy (x : Binary) : Except String Binary :=
  binaryCtor x.length (some (.bin x)) none

/-- The shared shape of all static mutating operations (`and`, `or`,
`xor`, `leftShift`, `rightShift`, `add`, `subtract`): coerce the operand
through `new binary(target.length, value, target.useSigned)` (which may
throw), combine the two `valueOf()` results with the native operator, and
reform the target.  The returned pair is the receiver's state when the
call finishes (normally or by throw) together with the thrown error, if
any: a throw happens inside the operand coercion, before `reform`
mutates the receiver. -/
def staticBinop (f : ℤ → ℤ → ℤ) (target : Binary) (v : JsValue) :
    Binary × Option String :=
  match binaryCtor target.length (some v) (some target.useSigned) with
  | .error e => (target, some e)
  | .ok value => (target.reform (f target.valueOf value.valueOf), none)

/-- `binary.and`. -/
def Binary.and (t : Binary) (v : JsValue) : Binary × Option String := staticBinop jsAnd t v

/-- `binary.or`. -/
def Binary.or (t : Binary) (v : JsValue) : Binary × Option String := staticBinop jsOr t v

/-- `binary.xor`. -/
def Binary.xor (t : Binary) (v : JsValue) : Binary × Option String := staticBinop jsXor t v

/-- `binary.leftShift`. -/
def Binary.leftShift (t : Binary) (v : JsValue) : Binary × Option String := staticBinop jsShl t v

/-- `binary.rightShift`. -/
def Binary.rightShift (t : Binary) (v : JsValue) : Binary × Option String := staticBinop jsShr t v

/-- `binary.add`. -/
def Binary.add (t : Binary) (v : JsValue) : Binary × Option String :=
  staticBinop (fun a b => a + b) t v

/-- `binary.subtract`. -/
def Binary.subtract (t : Binary) (v : JsValue) : Binary × Option String :=
  staticBinop (fun a b => a - b) t v

/-- `binary.not`: `target.reform(~target.valueOf())`; takes no operand and
performs no operand validation. -/
def Binary.notOp (t : Binary) : Binary := t.reform (jsNot t.valueOf)

/-- `fromArray` (and `fromBinary`/`fromNumber`/…): convert the argument
directly (no temporary instance) and reform; the pair is receiver state
plus thrown error as in `staticBinop`. -/
def Binary.fromArray (x : Binary) (v : JsValue) : Binary × Option String :=
  match convert v with
  | .error e => (x, some e)
  | .ok n => (x.reform n, none)

/-- `toArray()`: pushes `this[0] … this[length-1]` in order (most
significant first). -/
def Binary.toArray (x : Binary) : List Bool :=
  (List.range x.length).map (fun i => x.bits.getD i false)

/-- `toBinaryString(prefix)`: `'1'/'0'` per bit, most significant first. -/
def Binary.toBinaryString (x : Binary) (pfx : Bool) : String :=
  (if pfx then "0b" else "") ++ String.mk (x.bits.map (fun b => if b then '1' else '0'))

/-- The hex digit emitted by the `switch` in `toHexadecimalString`. -/
def hexDigitStr (n : ℕ) : String :=
  match n with
  | 10 => "A"
  | 11 => "B"
  | 12 => "C"
  | 13 => "D"
  | 14 => "E"
  | 15 => "F"
  | _ => toString n

/-- The inner counting loop of `toHexadecimalString`: the number of `'1'`
characters among the four characters starting at `start`. -/
def chunkPopcount (s : List Char) (start : ℕ) : ℕ :=
  ((s.drop start).take 4).countP (fun c => c == '1')

/-- `toHexadecimalString(prefix)`: split the binary string into
`ceil(length/4)` chunk positions; a chunk's count of set bits is only
accumulated under the guard `end < stringified.length` (strict), otherwise
the chunk's number stays `0`. -/
def Binary.toHexadecimalString (x : Binary) (pfx : Bool) : String :=
  let s := (x.toBinaryString false).data
  let numChunks := (s.length + 3) / 4
  (if pfx then "0x" else "") ++
    String.join ((List.range numChunks).map (fun c =>
      hexDigitStr (if 4 * c + 4 < s.length then chunkPopcount s (4 * c) else 0)))

/-! ### Definitions written from the specification's words
These are NOT translations of the source; they state what the spec claims,
for comparison against the source-derived definitions above. -/

/-- Modelled from the spec (claim C2): the claimed signed decode of an
unsigned reconstruction `u` at width `w`, with `mask = 2^w - 1`,
`halfMask = mask >> 1`, `signMask = mask & halfMask` read as exact
integer arithmetic on the mathematical mask values. -/
def specSigned (w : ℕ) (u : ℕ) : ℤ :=
  let mask : ℕ := 2 ^ w - 1
  let halfMask : ℕ := mask / 2
  let signMask : ℕ := Nat.land mask halfMask
  if Nat.land u signMask = 0 then (u : ℤ)
  else -(signMask : ℤ) + (Nat.land u halfMask : ℤ)

/-- Modelled from the spec (claim C7): the claimed hexadecimal rendering —
4-bit chunks from the most significant side, each chunk (including the
last) mapped to the hex digit equal to its count of set bits. -/
def specHexString (x : Binary) (pfx : Bool) : String :=
  (if pfx then "0x" else "") ++
    String.join ((List.range ((x.bits.length + 3) / 4)).map (fun c =>
      hexDigitStr (((x.bits.drop (4 * c)).take 4).countP (fun b => b))))

/-- The amended rendering actually implemented by the source: a chunk
contributes its popcount digit only when its end offset is strictly below
the bit-string length; any chunk reaching the end (always including the
final chunk) emits `'0'`. -/
def amendedHexString (x : Binary) (pfx : Bool) : String :=
  (if pfx then "0x" else "") ++
    String.join ((List.range ((x.bits.length + 3) / 4)).map (fun c =>
      if 4 * c + 4 < x.bits.length then
        hexDigitStr (((x.bits.drop (4 * c)).take 4).countP (fun b => b))
      else "0"))

/-- Modelled from the spec (claim C8): the claimed result of `add` with a
BitVector operand — the operand contributes its own effective value
(decoded per its own flag, no re-coercion through the receiver's flag),
and the sum is reformed per the receiver. -/
def specAddResult (t : Binary) (o : Binary) : Binary :=
  t.reform (t.valueOf + o.valueOf)

/-! ### Concrete vectors used by witnesses and counterexamples -/

/-- Width-8 unsigned vector holding `0b11011010` (218). -/
def b218u : Binary := ⟨[true, true, false, true, true, false, true, false], false⟩

/-- Width-8 signed vector holding the bit pattern `0b11011010`. -/
def b218s : Binary := ⟨[true, true, false, true, true, false, true, false], true⟩

/-- Width-8 unsigned vector holding `0xA9` (169, `0b10101001`). -/
def b169u : Binary := ⟨[true, false, true, false, true, false, false, true], false⟩

/-- Width-8 unsigned zero vector. -/
def zero8u : Binary := ⟨List.replicate 8 false, false⟩

/-- Width-8 signed zero vector. -/
def zero8s : Binary := ⟨List.replicate 8 false, true⟩

/-- Width-32 unsigned vector with only the least significant bit set. -/
def lsb32 : Binary := ⟨List.replicate 31 false ++ [true], false⟩

end LibslmBinary

namespace LibslmBinary

/-! ### Basic facts about the modelled JS coercions -/

theorem toUint32_eq (v : ℤ) : ((toUint32 v : ℕ) : ℤ) = v % 2 ^ 32 := by
  simp only [toUint32]
  exact Int.toNat_of_nonneg (Int.emod_nonneg v (by norm_num))

theorem toInt32_small (a : ℤ) (h0 : 0 ≤ a) (h : a < 2 ^ 31) : toInt32 a = a := by
  simp only [toInt32]
  rw [Int.emod_eq_of_lt h0 (lt_trans h (by norm_num)), if_pos h]

theorem toUint32_natCast (n : ℕ) (h : n < 2 ^ 32) : toUint32 (n : ℤ) = n := by
  have h' : (n : ℤ) % 2 ^ 32 = n :=
    Int.emod_eq_of_lt (by positivity) (by exact_mod_cast h)
  simp only [toUint32, h', Int.toNat_natCast]

theorem jsAnd_natCast (a b : ℕ) (ha : a < 2 ^ 32) (hb : b < 2 ^ 32)
    (hc : Nat.land a b < 2 ^ 31) :
    jsAnd (a : ℤ) (b : ℤ) = (Nat.land a b : ℤ) := by
  simp only [jsAnd, toUint32_natCast a ha, toUint32_natCast b hb]
  exact toInt32_small _ (by positivity) (by exact_mod_cast hc)

theorem jsShl1_pow (j : ℕ) (h : j + 1 ≤ 30) : jsShl1 ((2 : ℤ) ^ j) = 2 ^ (j + 1) := by
  have hj : (2 : ℤ) ^ j < 2 ^ 31 := by
    calc (2:ℤ) ^ j ≤ 2 ^ 30 := pow_le_pow_right₀ (by norm_num) (by omega)
    _ < 2 ^ 31 := by norm_num
  have hj' : (2 : ℤ) ^ (j + 1) < 2 ^ 31 := by
    calc (2:ℤ) ^ (j + 1) ≤ 2 ^ 30 := pow_le_pow_right₀ (by norm_num) h
    _ < 2 ^ 31 := by norm_num
  simp only [jsShl1, toInt32_small _ (by positivity) hj]
  have : (2 : ℤ) ^ j * 2 = 2 ^ (j + 1) := by ring
  rw [this]
  exact toInt32_small _ (by positivity) hj'

theorem msk_eq_pow : ∀ j : ℕ, j ≤ 30 → msk j = 2 ^ j := by
  intro j
  induction j with
  | zero => intro _; rfl
  | succ j ih =>
      intro hj
      show jsShl1 (msk j) = 2 ^ (j + 1)
      rw [ih (by omega)]
      exact jsShl1_pow j hj

theorem msk_31 : msk 31 = -(2 ^ 31) := by
  show jsShl1 (msk 30) = -(2 ^ 31)
  rw [msk_eq_pow 30 (by norm_num)]
  decide

theorem toUint32_msk (j : ℕ) (h : j ≤ 31) : toUint32 (msk j) = 2 ^ j := by
  rcases Nat.lt_or_ge j 31 with hj | hj
  · rw [msk_eq_pow j (by omega)]
    have hcast : (((2 ^ j : ℕ) : ℤ)) = (2 : ℤ) ^ j := by push_cast; ring
    rw [← hcast, toUint32_natCast]
    calc (2:ℕ) ^ j ≤ 2 ^ 30 := Nat.pow_le_pow_right (by norm_num) (by omega)
    _ < 2 ^ 32 := by norm_num
  · have hj31 : j = 31 := by omega
    subst hj31
    rw [msk_31]
    decide

/-! ### Closed evaluations: counterexamples and code-bug evidence -/

/-- C1 (counterexample): at width 32, constructing an unsigned binary from
the representable value `2^31 = 2147483648` and reading `unsigned` does
not return the seed: the most significant bit's loop mask is the int32
value `1 << 31 = -2^31`, so the getter returns `-2147483648`. -/
theorem c1_unsigned_roundtrip_w32_cex :
    (binaryCtor 32 (some (.num 2147483648)) (some false)).map Binary.unsigned
      = Except.ok (-2147483648 : ℤ) ∧ (-2147483648 : ℤ) ≠ 2147483648 := by
  exact ⟨rfl, by decide⟩

/-- C2 (counterexample): at width 32 the claimed decode formula (with the
mathematical masks `mask = 2^32 - 1`, `halfMask = signMask = 2^31 - 1`)
disagrees with the code: for the vector with only the least significant
bit set (unsigned reconstruction 1), the code's `signed` getter returns
`2` (because `mask >> 1` int32-overflows to `-1`), while the claim's
formula yields `-2147483646`. -/
theorem c2_signed_decode_w32_cex :
    Binary.signed lsb32 = 2 ∧ Binary.unsigned lsb32 = 1 ∧
      specSigned 32 (Binary.unsigned lsb32).toNat = -2147483646 ∧
      (2 : ℤ) ≠ -2147483646 := by
  refine ⟨rfl, rfl, rfl, by decide⟩

/-- C3 (code-bug evidence): the repository's own test
(`CREATE boolean[]`) constructs `new binary(8, [T,T,F,T,T,F,T,F], false)`
and expects `valueOf()` to be 218, i.e. the array stored positionally; the
code's `convert` computes `(data[index]? 1 : 0) & mask`, which is 0 for
every mask except the least significant, so the stored value is 0 (only
the array's last element survives).  Likewise a 10-element all-true array
at width 8 stores `00000001`, not the last 8 elements `11111111`. -/
theorem c3_boolean_array_construction_bug :
    (binaryCtor 8 (some (.boolArr [true, true, false, true, true, false, true, false]))
        (some false)).map Binary.valueOf = Except.ok 0 ∧ (0 : ℤ) ≠ 218 ∧
      (binaryCtor 8 (some (.boolArr (List.replicate 10 true))) (some false)).map Binary.bits
        = Except.ok [false, false, false, false, false, false, false, true] ∧
      ([false, false, false, false, false, false, false, true] : List Bool)
        ≠ List.replicate 8 true := by
  refine ⟨rfl, by decide, rfl, by decide⟩

/-- C5 (counterexample): `fromArray(toArray(x))` does not reconstruct the
width-2 unsigned vector with bits `10`: the boolean-array branch of
`convert` collapses the array to its last element, so the round trip
yields bits `00`. -/
theorem c5_roundtrip_cex :
    Binary.fromArray ⟨[true, false], false⟩
        (.boolArr (Binary.toArray ⟨[true, false], false⟩))
      = (⟨[false, false], false⟩, none) ∧
      (⟨[false, false], false⟩ : Binary) ≠ ⟨[true, false], false⟩ := by
  refine ⟨rfl, by decide⟩

/-- C6 (counterexample): `copy` of a signed width-8 vector with bits
`11011010` is not a copy: `new binary(this.length, this)` omits the third
argument, so the copy's `useSigned` is `false`, and the bit pattern is
rebuilt from the signed value `-37`, giving `11011011`. -/
theorem c6_copy_cex :
    (Binary.copy b218s).map Binary.useSigned = Except.ok false ∧
      b218s.useSigned = true ∧
      (Binary.copy b218s).map Binary.bits
        = Except.ok [true, true, false, true, true, false, true, true] ∧
      ([true, true, false, true, true, false, true, true] : List Bool) ≠ b218s.bits := by
  refine ⟨rfl, rfl, rfl, by decide⟩

/-- C7 (counterexample): for the width-8 vector `11011010` the code's
hexadecimal rendering is `0x30` (first chunk popcount 3, final chunk
forced to 0 by the strict `end < length` guard), while the claimed
popcount-per-chunk formula — applied to every chunk including the last —
yields `0x32`. -/
theorem c7_hex_popcount_cex :
    Binary.toHexadecimalString b218u true = "0x30" ∧
      specHexString b218u true = "0x32" ∧ ("0x30" : String) ≠ "0x32" := by
  refine ⟨rfl, rfl, by decide⟩

/-- C8 (counterexample): for a *signed* width-8 receiver holding 0 and an
unsigned width-8 operand holding 218, the code first re-coerces the
operand through the receiver's signed flag (yielding contribution `-37`),
so the result bits are `11011011`; the claimed behavior — add the
operand's own effective value 218 and reform — would give `01011010`. -/
theorem c8_operand_own_flag_cex :
    (Binary.add zero8s (.bin b218u)).1.bits
        = [true, true, false, true, true, false, true, true] ∧
      (specAddResult zero8s b218u).bits
        = [false, true, false, true, true, false, true, false] ∧
      ([true, true, false, true, true, false, true, true] : List Bool)
        ≠ [false, true, false, true, true, false, true, false] := by
  refine ⟨rfl, rfl, by decide⟩

/-- C10 (code-bug evidence): constructing with the seed argument absent
throws (`given value can't be undefined.`) for every width, although the
constructor declares the seed optional and the spec says an absent seed
defaults to an all-zero vector. -/
theorem c10_absent_seed_throws :
    ∀ w : ℕ, binaryCtor w none none
      = Except.error "binary: given value can't be undefined." :=
  fun _ => rfl

/-! ### Structural lemmas about the bit loops -/

theorem nat_land_eq_hand (a b : ℕ) : Nat.land a b = a &&& b := rfl

theorem reformAuxU_length (k : ℕ) (v mask : ℤ) : (reformAuxU k v mask).length = k := by
  induction k generalizing mask with
  | zero => rfl
  | succ k ih => simp [reformAuxU, ih]

theorem reformAuxS_length (k : ℕ) (v mask dmask : ℤ) :
    (reformAuxS k v mask dmask).length = k := by
  induction k generalizing mask with
  | zero => rfl
  | succ k ih => simp [reformAuxS, ih]

theorem mod_two_pow_succ_split (n k : ℕ) :
    n % 2 ^ (k + 1) = n % 2 + 2 * (n / 2 % 2 ^ k) := by
  have hk : 0 < (2:ℕ) ^ k := Nat.pow_pos (by norm_num)
  have hmod2 : n % 2 < 2 := Nat.mod_lt _ (by norm_num)
  have hmodk : n / 2 % 2 ^ k < 2 ^ k := Nat.mod_lt _ hk
  have hpow : (2:ℕ) ^ (k + 1) = 2 * 2 ^ k := by ring
  have h1 : 2 * (n / 2) % (2 * 2 ^ k) = 2 * (n / 2 % 2 ^ k) :=
    Nat.mul_mod_mul_left 2 (n / 2) (2 ^ k)
  rw [hpow]
  conv_lhs => rw [← Nat.div_add_mod n 2]
  rw [Nat.add_mod, h1, Nat.mod_eq_of_lt (show n % 2 < 2 * 2 ^ k by omega),
      Nat.mod_eq_of_lt (show 2 * (n / 2 % 2 ^ k) + n % 2 < 2 * 2 ^ k by omega)]
  omega

theorem toInt32_pow_ne_zero (j : ℕ) (hj : j ≤ 31) : toInt32 ((2:ℤ) ^ j) ≠ 0 := by
  rcases Nat.lt_or_ge j 31 with h | h
  · rw [toInt32_small _ (by positivity) (by
      calc (2:ℤ) ^ j ≤ 2 ^ 30 := pow_le_pow_right₀ (by norm_num) (by omega)
      _ < 2 ^ 31 := by norm_num)]
    positivity
  · have h31 : j = 31 := by omega
    subst h31
    decide

theorem jsAnd_msk_eq (v : ℤ) (j : ℕ) (hj : j ≤ 31) :
    jsAnd v (msk j) = toInt32 (((((toUint32 v).testBit j).toNat * 2 ^ j : ℕ) : ℤ)) := by
  simp only [jsAnd, toUint32_msk j hj, nat_land_eq_hand, Nat.and_two_pow]

theorem decide_jsAnd_msk (v : ℤ) (j : ℕ) (hj : j ≤ 31) :
    decide (jsAnd v (msk j) ≠ 0) = (toUint32 v).testBit j := by
  rw [jsAnd_msk_eq v j hj]
  cases h : (toUint32 v).testBit j
  · simp [toInt32]
  · have hc : (((Bool.true.toNat * 2 ^ j : ℕ) : ℤ)) = (2:ℤ) ^ j := by
      push_cast [Bool.toNat_true]
      ring
    rw [hc]
    simp [toInt32_pow_ne_zero j hj]

theorem unsigned_reform_mod_aux :
    ∀ (k j : ℕ) (v : ℤ), j + k ≤ 31 →
      unsignedAux (reformAuxU k v (msk j)) (msk j)
        = (((toUint32 v) / 2 ^ j % 2 ^ k : ℕ) : ℤ) * 2 ^ j := by
  intro k
  induction k with
  | zero =>
      intro j v h
      simp [reformAuxU, unsignedAux]
  | succ k ih =>
      intro j v h
      have hmj : msk j = 2 ^ j := msk_eq_pow j (by omega)
      show (if decide (jsAnd v (msk j) ≠ 0) = true then msk j else 0)
            + unsignedAux (reformAuxU k v (msk (j + 1))) (msk (j + 1)) = _
      rw [decide_jsAnd_msk v j (by omega), ih (j + 1) v (by omega), hmj]
      have hdd : toUint32 v / 2 ^ (j + 1) = toUint32 v / 2 ^ j / 2 := by
        rw [Nat.div_div_eq_div_mul, pow_succ]
      rw [hdd, Nat.testBit_to_div_mod, mod_two_pow_succ_split (toUint32 v / 2 ^ j) k]
      rcases Nat.mod_two_eq_zero_or_one (toUint32 v / 2 ^ j) with h2 | h2
      · rw [h2]
        norm_num
        ring
      · rw [h2]
        norm_num
        ring

theorem reform_false (x : Binary) (hx : x.useSigned = false) (v : ℤ) :
    x.reform v = ⟨(reformAuxU x.bits.length v 1).reverse, false⟩ := by
  simp [Binary.reform, hx, Binary.length]

theorem unsigned_mk_reverse (l : List Bool) (b : Bool) :
    Binary.unsigned ⟨l.reverse, b⟩ = unsignedAux l 1 := by
  simp [Binary.unsigned]

theorem toUint32_mod_pow (v : ℤ) (w : ℕ) (hw : w ≤ 32) :
    ((toUint32 v % 2 ^ w : ℕ) : ℤ) = v % 2 ^ w := by
  have hcast : ((toUint32 v % 2 ^ w : ℕ) : ℤ) = (toUint32 v : ℤ) % 2 ^ w := by
    push_cast
    ring
  rw [hcast, toUint32_eq, Int.emod_emod_of_dvd _ (pow_dvd_pow 2 hw)]

/-- `reform` on an unsigned vector of width at most 31 stores the value
modulo `2^width`, as read back by the `unsigned` getter. -/
theorem reform_unsigned_mod (x : Binary) (hx : x.useSigned = false)
    (hw : x.length ≤ 31) (v : ℤ) :
    (x.reform v).unsigned = v % 2 ^ x.length := by
  rw [reform_false x hx v, unsigned_mk_reverse]
  have h1 : unsignedAux (reformAuxU x.bits.length v 1) 1
      = unsignedAux (reformAuxU x.bits.length v (msk 0)) (msk 0) := rfl
  rw [h1, unsigned_reform_mod_aux x.bits.length 0 v (by simpa [Binary.length] using hw)]
  simp only [pow_zero, Nat.div_one, mul_one]
  exact toUint32_mod_pow v x.bits.length (by simp [Binary.length] at hw; omega)

/-! ### Constructor and operation bridging lemmas -/

theorem ctor_num (w : ℕ) (v : ℤ) (fl : Bool) :
    binaryCtor w (some (.num v)) (some fl)
      = Except.ok (Binary.reform ⟨List.replicate w false, fl⟩ v) := rfl

theorem ctor_bin (w : ℕ) (o : Binary) (fl : Bool) :
    binaryCtor w (some (.bin o)) (some fl)
      = Except.ok (Binary.reform ⟨List.replicate w false, fl⟩ o.valueOf) := rfl

theorem length_mk (l : List Bool) (b : Bool) : Binary.length ⟨l, b⟩ = l.length := rfl

theorem reform_useSigned (x : Binary) (v : ℤ) :
    (x.reform v).useSigned = x.useSigned := by
  by_cases h : x.useSigned <;> simp [Binary.reform, h]

theorem valueOf_false (x : Binary) (h : x.useSigned = false) : x.valueOf = x.unsigned := by
  simp [Binary.valueOf, h]

theorem add_emod_right_aux (a b n : ℤ) : (a + b % n) % n = (a + b) % n := by
  conv_lhs => rw [Int.emod_def b n]
  have h : a + (b - n * (b / n)) = a + b + n * (-(b / n)) := by ring
  rw [h, Int.add_mul_emod_self_left]

theorem sub_emod_right_aux (a b n : ℤ) : (a - b % n) % n = (a - b) % n := by
  conv_lhs => rw [Int.emod_def b n]
  have h : a - (b - n * (b / n)) = a - b + n * (b / n) := by ring
  rw [h, Int.add_mul_emod_self_left]

/-- The operand coercion performed by every static operation on a
`binary`-shaped operand, for an unsigned receiver of width at most 31:
the temporary's effective value is the operand's own effective value
reduced modulo `2^width`. -/
theorem coerced_operand_value (w : ℕ) (hw : w ≤ 31) (z : ℤ) :
    (Binary.reform ⟨List.replicate w false, false⟩ z).valueOf = z % 2 ^ w := by
  have hlen : Binary.length (⟨List.replicate w false, false⟩ : Binary) = w := by
    simp [Binary.length]
  rw [valueOf_false _ (by rw [reform_useSigned]),
      reform_unsigned_mod _ rfl (by rw [hlen]; exact hw), hlen]

/-- C1 (amended): for every width `w` with `1 ≤ w ≤ 31` and every `v` in
`[0, 2^w - 1]`, constructing unsigned from seed `v` and reading the
unsigned effective value returns exactly `v`.  (At width 32 the claim
fails; see the counterexample.) -/
theorem c1_unsigned_roundtrip_amended (w : ℕ) (v : ℤ) (h1 : 1 ≤ w) (h2 : w ≤ 31)
    (h3 : 0 ≤ v) (h4 : v ≤ 2 ^ w - 1) :
    (binaryCtor w (some (.num v)) (some false)).map Binary.unsigned = Except.ok v := by
  rw [ctor_num]
  simp only [Except.map]
  congr 1
  have hlen : Binary.length (⟨List.replicate w false, false⟩ : Binary) = w := by
    simp [Binary.length]
  rw [reform_unsigned_mod _ rfl (by rw [hlen]; exact h2), hlen]
  have hpos : (0:ℤ) < 2 ^ w := by positivity
  exact Int.emod_eq_of_lt h3 (by linarith)

/-- Witness for C1: width 8, seed 218. -/
theorem c1_unsigned_roundtrip_witness :
    (binaryCtor 8 (some (.num 218)) (some false)).map Binary.unsigned = Except.ok 218 :=
  c1_unsigned_roundtrip_amended 8 218 (by norm_num) (by norm_num) (by norm_num) (by norm_num)

/-- C8 (amended): when the receiver is *unsigned* (width at most 31), a
BitVector operand of `add` or `subtract` contributes exactly its own
effective value — decoded per its own `signed` flag — to the sum or
difference modulo `2^width`, and no error is raised.  (For a signed
receiver the re-coercion through the receiver's flag changes the
contribution; see the counterexample.) -/
theorem c8_operand_own_flag_amended (x o : Binary) (hx : x.useSigned = false)
    (hw : x.length ≤ 31) :
    (Binary.add x (.bin o)).2 = none ∧
      (Binary.add x (.bin o)).1.unsigned = (x.unsigned + o.valueOf) % 2 ^ x.length ∧
      (Binary.subtract x (.bin o)).2 = none ∧
      (Binary.subtract x (.bin o)).1.unsigned
        = (x.unsigned - o.valueOf) % 2 ^ x.length := by
  have hredA : Binary.add x (.bin o)
      = (x.reform (x.valueOf
          + (Binary.reform ⟨List.replicate x.length false, false⟩ o.valueOf).valueOf), none) := by
    simp only [Binary.add, staticBinop, hx, ctor_bin]
  have hredS : Binary.subtract x (.bin o)
      = (x.reform (x.valueOf
          - (Binary.reform ⟨List.replicate x.length false, false⟩ o.valueOf).valueOf), none) := by
    simp only [Binary.subtract, staticBinop, hx, ctor_bin]
  rw [hredA, hredS]
  refine ⟨rfl, ?_, rfl, ?_⟩
  · rw [coerced_operand_value x.length hw o.valueOf, valueOf_false x hx,
        reform_unsigned_mod x hx hw, add_emod_right_aux]
  · rw [coerced_operand_value x.length hw o.valueOf, valueOf_false x hx,
        reform_unsigned_mod x hx hw, sub_emod_right_aux]

/-- Witness for C8: unsigned width-8 zero receiver, signed width-8 operand
with bits `11011010` (own value −37), for both `add` and `subtract`. -/
theorem c8_operand_own_flag_witness :
    (Binary.add zero8u (.bin b218s)).2 = none ∧
      (Binary.add zero8u (.bin b218s)).1.unsigned
        = (zero8u.unsigned + b218s.valueOf) % 2 ^ zero8u.length ∧
      (Binary.subtract zero8u (.bin b218s)).2 = none ∧
      (Binary.subtract zero8u (.bin b218s)).1.unsigned
        = (zero8u.unsigned - b218s.valueOf) % 2 ^ zero8u.length :=
  c8_operand_own_flag_amended zero8u b218s (by decide) (by decide)

/-- C4: for unsigned receivers (width ≤ 31, width 8 in particular) and
unsigned `binary` operands, `add` and `subtract` throw nothing and store
the exact integer sum/difference truncated modulo `2^width` (the width
mask plus one), silently wrapping. -/
theorem c4_add_subtract_wrap (x b : Binary) (hx : x.useSigned = false)
    (hb : b.useSigned = false) (hw : x.length ≤ 31) :
    (Binary.add x (.bin b)).2 = none ∧
      (Binary.add x (.bin b)).1.unsigned = (x.unsigned + b.unsigned) % 2 ^ x.length ∧
      (Binary.subtract x (.bin b)).2 = none ∧
      (Binary.subtract x (.bin b)).1.unsigned = (x.unsigned - b.unsigned) % 2 ^ x.length := by
  have hredA : Binary.add x (.bin b)
      = (x.reform (x.valueOf
          + (Binary.reform ⟨List.replicate x.length false, false⟩ b.valueOf).valueOf), none) := by
    simp only [Binary.add, staticBinop, hx, ctor_bin]
  have hredS : Binary.subtract x (.bin b)
      = (x.reform (x.valueOf
          - (Binary.reform ⟨List.replicate x.length false, false⟩ b.valueOf).valueOf), none) := by
    simp only [Binary.subtract, staticBinop, hx, ctor_bin]
  rw [hredA, hredS]
  refine ⟨rfl, ?_, rfl, ?_⟩
  · rw [coerced_operand_value x.length hw b.valueOf, valueOf_false x hx, valueOf_false b hb,
        reform_unsigned_mod x hx hw, add_emod_right_aux]
  · rw [coerced_operand_value x.length hw b.valueOf, valueOf_false x hx, valueOf_false b hb,
        reform_unsigned_mod x hx hw, sub_emod_right_aux]

/-- Witness for C4: `0xA9 + 0xDA` and `0xA9 - 0xDA` at width 8 (the
receiver holds 169, the operand 218; results are 131 and 207 mod 256). -/
theorem c4_add_subtract_wrap_witness :
    (Binary.add b169u (.bin b218u)).2 = none ∧
      (Binary.add b169u (.bin b218u)).1.unsigned
        = (b169u.unsigned + b218u.unsigned) % 2 ^ b169u.length ∧
      (Binary.subtract b169u (.bin b218u)).2 = none ∧
      (Binary.subtract b169u (.bin b218u)).1.unsigned
        = (b169u.unsigned - b218u.unsigned) % 2 ^ b169u.length :=
  c4_add_subtract_wrap b169u b218u (by decide) (by decide) (by decide)

/-! ### Characterization of the unsigned getter below width 32 -/

theorem bitsVal_lt (bs : List Bool) : bitsVal bs < 2 ^ bs.length := by
  induction bs with
  | nil => norm_num [bitsVal]
  | cons b rest ih =>
      have hp : (2:ℕ) ^ (rest.length + 1) = 2 * 2 ^ rest.length := by ring
      simp only [bitsVal, List.length_cons, hp]
      rcases b <;> simp <;> omega

theorem uAux_pos (bs : List Bool) : ∀ j : ℕ, j + bs.length ≤ 31 →
    unsignedAux bs (msk j) = (bitsVal bs : ℕ) * 2 ^ j := by
  induction bs with
  | nil => intro j h; simp [unsignedAux, bitsVal]
  | cons b rest ih =>
      intro j h
      show (if b then msk j else 0) + unsignedAux rest (msk (j + 1)) = _
      rw [msk_eq_pow j (by simp at h; omega), ih (j + 1) (by simp at h; omega)]
      simp only [bitsVal]
      cases b <;> simp <;> push_cast <;> ring

theorem unsigned_eq_bitsVal (x : Binary) (hw : x.length ≤ 31) :
    x.unsigned = (bitsVal x.bits.reverse : ℕ) := by
  have h : Binary.unsigned x = unsignedAux x.bits.reverse (msk 0) := rfl
  rw [h, uAux_pos x.bits.reverse 0
    (by simpa [Binary.length] using hw)]
  simp

theorem unsigned_nonneg (x : Binary) (hw : x.length ≤ 31) : 0 ≤ x.unsigned := by
  rw [unsigned_eq_bitsVal x hw]
  positivity

theorem unsigned_lt (x : Binary) (hw : x.length ≤ 31) :
    x.unsigned < 2 ^ x.length := by
  rw [unsigned_eq_bitsVal x hw]
  have h := bitsVal_lt x.bits.reverse
  have hc : ((bitsVal x.bits.reverse : ℕ) : ℤ) < ((2 ^ x.bits.reverse.length : ℕ) : ℤ) := by
    exact_mod_cast h
  calc ((bitsVal x.bits.reverse : ℕ) : ℤ) < ((2 ^ x.bits.reverse.length : ℕ) : ℤ) := hc
  _ = 2 ^ x.length := by push_cast [List.length_reverse]; rfl

/-! ### The derived masks at widths 1..31 -/

theorem maskVal_cast (w : ℕ) : maskVal w = ((2 ^ w - 1 : ℕ) : ℤ) := by
  have h : (1:ℕ) ≤ 2 ^ w := Nat.one_le_two_pow
  simp only [maskVal]
  push_cast [h]
  ring

theorem decimalMask_eq (w : ℕ) (h1 : 1 ≤ w) (h2 : w ≤ 31) :
    decimalMask w = ((2 ^ (w - 1) - 1 : ℕ) : ℤ) := by
  have hm : (2:ℕ) ^ w - 1 < 2 ^ 31 := by
    have : (2:ℕ) ^ w ≤ 2 ^ 31 := Nat.pow_le_pow_right (by norm_num) h2
    have : (0:ℕ) < 2 ^ w := Nat.pow_pos (by norm_num)
    omega
  have hsplit : (2:ℕ) ^ w = 2 * 2 ^ (w - 1) := by
    conv_lhs => rw [show w = (w - 1) + 1 by omega]
    rw [pow_succ]
    ring
  simp only [decimalMask, maskVal_cast]
  have ht : toInt32 ((2 ^ w - 1 : ℕ) : ℤ) = ((2 ^ w - 1 : ℕ) : ℤ) :=
    toInt32_small _ (by positivity) (by exact_mod_cast hm)
  have hsh : toUint32 1 % 32 = 1 := by decide
  simp only [jsShr, ht, hsh, pow_one]
  have hfd := (Int.ofNat_fdiv (2 ^ w - 1) 2).symm
  have h2c : ((2:ℕ) : ℤ) = (2:ℤ) := by norm_num
  rw [h2c] at hfd
  rw [hfd]
  have hdiv : (2 ^ w - 1) / 2 = 2 ^ (w - 1) - 1 := by omega
  exact_mod_cast congrArg (Nat.cast : ℕ → ℤ) hdiv

theorem signedMask_eq (w : ℕ) (h1 : 1 ≤ w) (h2 : w ≤ 31) :
    signedMask w = ((2 ^ (w - 1) - 1 : ℕ) : ℤ) := by
  have hsplit : (2:ℕ) ^ w = 2 * 2 ^ (w - 1) := by
    conv_lhs => rw [show w = (w - 1) + 1 by omega]
    rw [pow_succ]
    ring
  have hm31 : (2:ℕ) ^ w - 1 < 2 ^ 32 := by
    have : (2:ℕ) ^ w ≤ 2 ^ 31 := Nat.pow_le_pow_right (by norm_num) h2
    omega
  have hh31 : (2:ℕ) ^ (w - 1) - 1 < 2 ^ 32 := by
    have : (2:ℕ) ^ (w - 1) ≤ 2 ^ 30 := Nat.pow_le_pow_right (by norm_num) (by omega)
    omega
  have hland : Nat.land (2 ^ w - 1) (2 ^ (w - 1) - 1) = 2 ^ (w - 1) - 1 := by
    rw [nat_land_eq_hand, Nat.and_pow_two_sub_one_eq_mod]
    have hlt : (2:ℕ) ^ (w - 1) - 1 < 2 ^ (w - 1) := by
      have : (0:ℕ) < 2 ^ (w - 1) := Nat.pow_pos (by norm_num)
      omega
    calc (2 ^ w - 1) % 2 ^ (w - 1)
        = (2 ^ (w - 1) - 1 + 1 * 2 ^ (w - 1)) % 2 ^ (w - 1) := by congr 1; omega
    _ = (2 ^ (w - 1) - 1) % 2 ^ (w - 1) := by rw [Nat.add_mul_mod_self_right]
    _ = 2 ^ (w - 1) - 1 := Nat.mod_eq_of_lt hlt
  have hsmall : Nat.land (2 ^ w - 1) (2 ^ (w - 1) - 1) < 2 ^ 31 := by
    rw [hland]
    have : (2:ℕ) ^ (w - 1) ≤ 2 ^ 30 := Nat.pow_le_pow_right (by norm_num) (by omega)
    omega
  simp only [signedMask, maskVal_cast, decimalMask_eq w h1 h2]
  rw [jsAnd_natCast _ _ hm31 hh31 hsmall, hland]

theorem land_allones_half (w : ℕ) (h1 : 1 ≤ w) :
    Nat.land (2 ^ w - 1) (2 ^ (w - 1) - 1) = 2 ^ (w - 1) - 1 := by
  have hsplit : (2:ℕ) ^ w = 2 * 2 ^ (w - 1) := by
    conv_lhs => rw [show w = (w - 1) + 1 by omega]
    rw [pow_succ]
    ring
  have hpos : (0:ℕ) < 2 ^ (w - 1) := Nat.pow_pos (by norm_num)
  rw [nat_land_eq_hand, Nat.and_pow_two_sub_one_eq_mod]
  have hlt : (2:ℕ) ^ (w - 1) - 1 < 2 ^ (w - 1) := by omega
  calc (2 ^ w - 1) % 2 ^ (w - 1)
      = (2 ^ (w - 1) - 1 + 1 * 2 ^ (w - 1)) % 2 ^ (w - 1) := by congr 1; omega
  _ = (2 ^ (w - 1) - 1) % 2 ^ (w - 1) := by rw [Nat.add_mul_mod_self_right]
  _ = 2 ^ (w - 1) - 1 := Nat.mod_eq_of_lt hlt

/-- C2 (amended): for every vector of width 1..31, the `signed` getter
computes exactly the claimed formula: with `mask = 2^w - 1`,
`halfMask = mask >> 1` and `signMask = mask & halfMask`, the signed value
is the unsigned reconstruction `u` when `u & signMask == 0` and
`-signMask + (u & halfMask)` otherwise.  (At width 32 the int32 overflow
of the derived masks breaks the formula; see the counterexample.) -/
theorem c2_signed_decode_amended (x : Binary) (h1 : 1 ≤ x.length) (h2 : x.length ≤ 31) :
    x.signed = specSigned x.length x.unsigned.toNat := by
  have hu := unsigned_eq_bitsVal x h2
  have hulz : x.unsigned.toNat = bitsVal x.bits.reverse := by rw [hu, Int.toNat_natCast]
  have hult : bitsVal x.bits.reverse < 2 ^ x.length := by
    have h := bitsVal_lt x.bits.reverse
    simpa [Binary.length] using h
  have hu31 : bitsVal x.bits.reverse < 2 ^ 31 :=
    lt_of_lt_of_le hult (Nat.pow_le_pow_right (by norm_num) h2)
  have hNpos : (0:ℕ) < 2 ^ (x.length - 1) := Nat.pow_pos (by norm_num)
  have hN30 : (2:ℕ) ^ (x.length - 1) - 1 < 2 ^ 31 := by
    have h := Nat.pow_le_pow_right (show 1 ≤ 2 by norm_num) (show x.length - 1 ≤ 30 by omega)
    have h30 : (2:ℕ) ^ (x.length - 1) ≤ 2 ^ 30 := h
    omega
  have hland : Nat.land (bitsVal x.bits.reverse) (2 ^ (x.length - 1) - 1)
      = bitsVal x.bits.reverse % 2 ^ (x.length - 1) := by
    rw [nat_land_eq_hand, Nat.and_pow_two_sub_one_eq_mod]
  have hmodlt : bitsVal x.bits.reverse % 2 ^ (x.length - 1) < 2 ^ 31 := by
    have h := Nat.mod_lt (bitsVal x.bits.reverse) hNpos
    omega
  have hjs : jsAnd x.unsigned (signedMask x.length)
      = ((bitsVal x.bits.reverse % 2 ^ (x.length - 1) : ℕ) : ℤ) := by
    rw [hu, signedMask_eq x.length h1 h2,
        jsAnd_natCast _ _ (by omega) (by omega) (by rw [hland]; exact hmodlt), hland]
  have hjd : jsAnd x.unsigned (decimalMask x.length)
      = ((bitsVal x.bits.reverse % 2 ^ (x.length - 1) : ℕ) : ℤ) := by
    rw [hu, decimalMask_eq x.length h1 h2,
        jsAnd_natCast _ _ (by omega) (by omega) (by rw [hland]; exact hmodlt), hland]
  have hhalf : (2 ^ x.length - 1) / 2 = 2 ^ (x.length - 1) - 1 := by
    have hsplit : (2:ℕ) ^ x.length = 2 * 2 ^ (x.length - 1) := by
      conv_lhs => rw [show x.length = (x.length - 1) + 1 by omega]
      rw [pow_succ]
      ring
    omega
  have hcode : Binary.signed x
      = (if jsAnd x.unsigned (signedMask x.length) ≠ 0 then
          -(signedMask x.length) + jsAnd x.unsigned (decimalMask x.length)
        else x.unsigned) := rfl
  rw [hcode, hjs, hjd, signedMask_eq x.length h1 h2]
  simp only [specSigned, hulz, hhalf, land_allones_half x.length h1, hland]
  by_cases hz : bitsVal x.bits.reverse % 2 ^ (x.length - 1) = 0
  · simp [hz, hu]
  · have hz' : ((bitsVal x.bits.reverse % 2 ^ (x.length - 1) : ℕ) : ℤ) ≠ 0 := by
      exact_mod_cast hz
    rw [if_pos hz', if_neg hz]

/-- Witness for C2: the width-8 vector holding `0b11011010` (unsigned 218)
has signed value −37 under the pinned formula. -/
theorem c2_signed_decode_witness :
    Binary.signed b218u = specSigned b218u.length b218u.unsigned.toNat ∧
      Binary.signed b218u = -37 :=
  ⟨c2_signed_decode_amended b218u (by decide) (by decide), by decide⟩

/-! ### Validation happens before mutation (C9) -/

theorem staticBinop_error_unchanged (f : ℤ → ℤ → ℤ) (t : Binary) (v : JsValue)
    (h : ((staticBinop f t v).2).isSome = true) : (staticBinop f t v).1 = t := by
  cases hc : binaryCtor t.length (some v) (some t.useSigned)
  · simp [staticBinop, hc]
  · exfalso
    simp [staticBinop, hc] at h

/-- C9: every validation error of a mutating operation (`and`, `or`,
`xor`, `leftShift`, `rightShift`, `add`, `subtract`; `not` takes no
operand and has no validation path) is thrown during operand coercion,
before `reform` touches the receiver, so a throwing call leaves the
receiver's bits, width and signed flag untouched; and the coercion does
throw on null, undefined, empty string, non-numeric string, and empty
array operands. -/
theorem c9_validation_before_mutation (t : Binary) (v : JsValue) :
    ((Binary.and t v).2.isSome = true → (Binary.and t v).1 = t) ∧
    ((Binary.or t v).2.isSome = true → (Binary.or t v).1 = t) ∧
    ((Binary.xor t v).2.isSome = true → (Binary.xor t v).1 = t) ∧
    ((Binary.leftShift t v).2.isSome = true → (Binary.leftShift t v).1 = t) ∧
    ((Binary.rightShift t v).2.isSome = true → (Binary.rightShift t v).1 = t) ∧
    ((Binary.add t v).2.isSome = true → (Binary.add t v).1 = t) ∧
    ((Binary.subtract t v).2.isSome = true → (Binary.subtract t v).1 = t) ∧
    (Binary.and t .null).2.isSome = true ∧
    (Binary.and t .undef).2.isSome = true ∧
    (Binary.and t (.str "" (some 0))).2.isSome = true ∧
    (Binary.and t (.str "abc" none)).2.isSome = true ∧
    (Binary.and t (.boolArr [])).2.isSome = true ∧
    (Binary.and t (.numArr [])).2.isSome = true ∧
    (Binary.and t (.strArr [])).2.isSome = true ∧
    (Binary.add t .null).2.isSome = true ∧
    (Binary.add t (.str "xyz" none)).2.isSome = true ∧
    (Binary.add t (.boolArr [])).2.isSome = true :=
  ⟨staticBinop_error_unchanged jsAnd t v,
   staticBinop_error_unchanged jsOr t v,
   staticBinop_error_unchanged jsXor t v,
   staticBinop_error_unchanged jsShl t v,
   staticBinop_error_unchanged jsShr t v,
   staticBinop_error_unchanged (fun a b => a + b) t v,
   staticBinop_error_unchanged (fun a b => a - b) t v,
   rfl, rfl, rfl, rfl, rfl, rfl, rfl, rfl, rfl, rfl⟩

/-- Witness for C9: a non-numeric string operand makes `and` throw and
leaves the receiver untouched. -/
theorem c9_validation_before_mutation_witness :
    (Binary.and zero8u (.str "abc" none)).1 = zero8u :=
  (c9_validation_before_mutation zero8u (.str "abc" none)).1 rfl

/-! ### The boolean-array collapse (C5) -/

theorem jsAnd_zero_left (m : ℤ) : jsAnd 0 m = 0 := by
  have h0 : toUint32 0 = 0 := by decide
  simp only [jsAnd, h0, nat_land_eq_hand, Nat.zero_and, Nat.cast_zero]
  decide

theorem toUint32_toInt32 (z : ℤ) : toUint32 (toInt32 z) = toUint32 z := by
  simp only [toUint32, toInt32]
  split
  · rw [Int.emod_emod_of_dvd _ dvd_rfl]
  · rw [Int.sub_emod, Int.emod_self, sub_zero, Int.emod_emod_of_dvd _ dvd_rfl,
      Int.emod_emod_of_dvd _ dvd_rfl]

theorem jsAnd_one_jsShl1 (m : ℤ) : jsAnd 1 (jsShl1 m) = 0 := by
  have h1 : toUint32 1 = 1 := by decide
  have heven : toUint32 (jsShl1 m) % 2 = 0 := by
    have hd : (2:ℤ) ∣ (toInt32 m * 2) % 2 ^ 32 := by
      have hda : (2:ℤ) ∣ toInt32 m * 2 := dvd_mul_left 2 (toInt32 m)
      have hdb : (2:ℤ) ∣ 2 ^ 32 := by norm_num
      rw [Int.emod_def]
      exact dvd_sub hda (Dvd.dvd.mul_right hdb _)
    have hnn : 0 ≤ (toInt32 m * 2) % 2 ^ 32 := Int.emod_nonneg _ (by norm_num)
    have hd2 : (2:ℕ) ∣ ((toInt32 m * 2) % 2 ^ 32).toNat := by
      have hcast : (((((toInt32 m * 2) % 2 ^ 32).toNat : ℕ)) : ℤ) = (toInt32 m * 2) % 2 ^ 32 :=
        Int.toNat_of_nonneg hnn
      have : ((2:ℕ) : ℤ) ∣ ((((toInt32 m * 2) % 2 ^ 32).toNat : ℕ) : ℤ) := by
        rw [hcast]
        exact_mod_cast hd
      exact_mod_cast this
    have hju : toUint32 (jsShl1 m) = ((toInt32 m * 2) % 2 ^ 32).toNat := by
      unfold jsShl1
      rw [toUint32_toInt32]
      rfl
    rw [hju]
    omega
  simp only [jsAnd, h1, nat_land_eq_hand, Nat.one_and_eq_mod_two, heven, Nat.cast_zero]
  decide

theorem convBoolAux_shifted (bs : List Bool) : ∀ m : ℤ, convBoolAux bs (jsShl1 m) = 0 := by
  induction bs with
  | nil => intro m; rfl
  | cons b rest ih =>
      intro m
      show jsAnd (if b then 1 else 0) (jsShl1 m) + convBoolAux rest (jsShl1 (jsShl1 m)) = 0
      rw [ih (jsShl1 m)]
      cases b <;> simp [jsAnd_zero_left, jsAnd_one_jsShl1]

theorem reformAuxU_zero_val (k : ℕ) : ∀ m : ℤ, reformAuxU k 0 m = List.replicate k false := by
  induction k with
  | zero => intro m; rfl
  | succ k ih =>
      intro m
      show decide (jsAnd 0 m ≠ 0) :: reformAuxU k 0 (jsShl1 m) = _
      rw [jsAnd_zero_left, ih]
      simp [List.replicate_succ]

theorem reformAuxU_one_shifted (k : ℕ) : ∀ m : ℤ,
    reformAuxU k 1 (jsShl1 m) = List.replicate k false := by
  induction k with
  | zero => intro m; rfl
  | succ k ih =>
      intro m
      show decide (jsAnd 1 (jsShl1 m) ≠ 0) :: reformAuxU k 1 (jsShl1 (jsShl1 m)) = _
      rw [jsAnd_one_jsShl1, ih]
      simp [List.replicate_succ]

theorem reformAuxU_one (k : ℕ) : reformAuxU (k + 1) 1 1 = true :: List.replicate k false := by
  show decide (jsAnd 1 1 ≠ 0) :: reformAuxU k 1 (jsShl1 1) = _
  rw [reformAuxU_one_shifted k 1]
  have h11 : jsAnd 1 1 = 1 := by decide
  simp [h11]

theorem toArray_eq_bits (x : Binary) : x.toArray = x.bits := by
  apply List.ext_getElem
  · simp [Binary.toArray, Binary.length]
  · intro n h1 h2
    simp only [Binary.toArray, List.getElem_map, List.getElem_range]
    exact List.getD_eq_getElem x.bits false h2

/-- C5 (amended): `fromArray(toArray(x))` reconstructs the bit sequence of
`x` exactly when `x` is unsigned and every bit above the least significant
one is clear — in general the boolean-array branch of `convert` keeps only
the array's last element, so only such vectors survive the round trip.
(See the counterexample for a two-bit vector that does not.) -/
theorem c5_roundtrip_amended (x : Binary) (b : Bool) (hx : x.useSigned = false)
    (hb : x.bits = List.replicate (x.length - 1) false ++ [b]) :
    Binary.fromArray x (.boolArr x.toArray) = (x, none) := by
  obtain ⟨xb, xs⟩ := x
  have hxs : xs = false := hx
  subst hxs
  have hb' : xb = List.replicate (xb.length - 1) false ++ [b] := hb
  have hlen : xb.length = (xb.length - 1) + 1 := by
    conv_lhs => rw [hb']
    simp
  have hne : xb.length ≠ 0 := by omega
  have hrev : xb.reverse = b :: List.replicate (xb.length - 1) false := by
    conv_lhs => rw [hb']
    simp [List.reverse_append]
  have hconv : convert (.boolArr (Binary.toArray ⟨xb, false⟩))
      = Except.ok (if b then 1 else 0) := by
    rw [toArray_eq_bits]
    show convert (.boolArr xb) = Except.ok (if b then 1 else 0)
    simp only [convert, hne, if_false, hrev]
    show Except.ok (jsAnd (if b then 1 else 0) 1
        + convBoolAux (List.replicate (xb.length - 1) false) (jsShl1 1))
      = Except.ok (if b then 1 else 0)
    rw [convBoolAux_shifted]
    have h11 : jsAnd 1 1 = 1 := by decide
    cases b <;> simp [h11, jsAnd_zero_left]
  show Binary.fromArray ⟨xb, false⟩ (.boolArr (Binary.toArray ⟨xb, false⟩)) = _
  rw [Binary.fromArray, hconv]
  have hre : Binary.reform ⟨xb, false⟩ (if b then 1 else 0)
      = (⟨xb, false⟩ : Binary) := by
    rw [reform_false _ rfl]
    have hbits : (reformAuxU xb.length (if b then 1 else 0) 1).reverse = xb := by
      cases b
      · rw [if_neg (by simp), reformAuxU_zero_val, List.reverse_replicate]
        conv_rhs => rw [hb']
        rw [show List.replicate (xb.length - 1) false ++ [false]
              = List.replicate ((xb.length - 1) + 1) false by
            rw [← List.replicate_succ']
          , ← hlen]
      · rw [if_pos rfl]
        conv_lhs => rw [hlen]
        rw [reformAuxU_one]
        conv_rhs => rw [hb']
        simp
    show (⟨(reformAuxU xb.length (if b then 1 else 0) 1).reverse, false⟩ : Binary)
        = (⟨xb, false⟩ : Binary)
    rw [hbits]
  show ((⟨xb, false⟩ : Binary).reform (if b = true then 1 else 0), none)
      = ((⟨xb, false⟩ : Binary), none)
  rw [hre]

/-- Witness for C5: the width-2 unsigned vector with bits `01` survives the
round trip. -/
theorem c5_roundtrip_witness :
    Binary.fromArray ⟨[false, true], false⟩
        (.boolArr (Binary.toArray ⟨[false, true], false⟩))
      = (⟨[false, true], false⟩, none) :=
  c5_roundtrip_amended ⟨[false, true], false⟩ true rfl (by decide)

/-! ### The hexadecimal rendering (C7) -/

theorem toBinaryString_data (x : Binary) :
    (x.toBinaryString false).data = x.bits.map (fun b => if b then '1' else '0') := by
  simp [Binary.toBinaryString, String.data_append]

/-- C7 (amended): the hexadecimal rendering emits, for each 4-bit chunk
whose end offset is strictly below the width, the hex digit equal to that
chunk's count of set bits; every chunk reaching the end of the bit string
— in particular always the final chunk — emits `'0'`.  The optional `0x`
prefix behaves as claimed. -/
theorem c7_hex_popcount_amended (x : Binary) (pfx : Bool) :
    Binary.toHexadecimalString x pfx = amendedHexString x pfx := by
  simp only [Binary.toHexadecimalString, amendedHexString, toBinaryString_data,
    List.length_map]
  congr 1
  congr 1
  apply List.map_congr_left
  intro c _
  by_cases hcd : 4 * c + 4 < x.bits.length
  · rw [if_pos hcd, if_pos hcd]
    congr 1
    simp only [chunkPopcount, ← List.map_drop, ← List.map_take, List.countP_map]
    apply List.countP_congr
    intro a _
    cases a <;> simp
  · rw [if_neg hcd, if_neg hcd]
    rfl

/-! ### reform ∘ unsigned is the identity on unsigned vectors (C6) -/

theorem uAux_modEq (bs : List Bool) : ∀ j : ℕ, j + bs.length ≤ 32 →
    unsignedAux bs (msk j) ≡ ((bitsVal bs : ℕ) : ℤ) * 2 ^ j [ZMOD (2:ℤ)^32] := by
  induction bs with
  | nil =>
      intro j h
      simpa [unsignedAux, bitsVal] using Int.ModEq.refl 0
  | cons b rest ih =>
      intro j h
      have hj31 : j ≤ 31 := by simp at h; omega
      have hhead : (if b then msk j else 0) ≡ (if b then ((2:ℤ)) ^ j else 0)
          [ZMOD (2:ℤ)^32] := by
        cases b
        · simp
        · simp only [if_true]
          rcases Nat.lt_or_ge j 31 with hj | hj
          · rw [msk_eq_pow j (by omega)]
          · have hj' : j = 31 := by omega
            subst hj'
            rw [msk_31]
            decide
      have htail := ih (j + 1) (by simp at h; omega)
      have hsum := Int.ModEq.add hhead htail
      have heq : (if b then ((2:ℤ)) ^ j else 0) + ↑(bitsVal rest) * 2 ^ (j + 1)
          = ↑(bitsVal (b :: rest)) * 2 ^ j := by
        simp only [bitsVal]
        cases b <;> push_cast <;> simp <;> ring
      show ((if b then msk j else 0) + unsignedAux rest (msk (j + 1)))
          ≡ ↑(bitsVal (b :: rest)) * 2 ^ j [ZMOD (2:ℤ)^32]
      exact heq ▸ hsum

theorem toUint32_L_add (bs : List Bool) (j : ℕ) (L : ℤ) (h : j + bs.length ≤ 32)
    (hL0 : 0 ≤ L) (hLlt : L < 2 ^ j) :
    toUint32 (L + unsignedAux bs (msk j)) = L.toNat + bitsVal bs * 2 ^ j := by
  have hmod : L + unsignedAux bs (msk j) ≡ L + ↑(bitsVal bs) * 2 ^ j [ZMOD (2:ℤ)^32] :=
    Int.ModEq.add_left L (uAux_modEq bs j h)
  have hLn : L.toNat < 2 ^ j := by
    have hc : (L.toNat : ℤ) < ((2 ^ j : ℕ) : ℤ) := by
      rw [Int.toNat_of_nonneg hL0]
      push_cast
      exact hLlt
    exact_mod_cast hc
  have hbv := bitsVal_lt bs
  have hjle : (2:ℕ) ^ j * 2 ^ bs.length ≤ 2 ^ 32 := by
    rw [← pow_add]
    exact Nat.pow_le_pow_right (by norm_num) h
  have hNbound : L.toNat + bitsVal bs * 2 ^ j < 2 ^ 32 :=
    calc L.toNat + bitsVal bs * 2 ^ j
        < 2 ^ j + bitsVal bs * 2 ^ j := Nat.add_lt_add_right hLn _
    _ = (1 + bitsVal bs) * 2 ^ j := by ring
    _ ≤ 2 ^ bs.length * 2 ^ j := Nat.mul_le_mul_right _ (by omega)
    _ = 2 ^ j * 2 ^ bs.length := by ring
    _ ≤ 2 ^ 32 := hjle
  have hcast : L + ↑(bitsVal bs) * 2 ^ j = ((L.toNat + bitsVal bs * 2 ^ j : ℕ) : ℤ) := by
    conv_lhs => rw [← Int.toNat_of_nonneg hL0]
    push_cast
    ring
  have hfinal : (L + unsignedAux bs (msk j)) % 2 ^ 32
      = ((L.toNat + bitsVal bs * 2 ^ j : ℕ) : ℤ) := by
    have h1 : (L + unsignedAux bs (msk j)) % 2 ^ 32
        = (L + ↑(bitsVal bs) * 2 ^ j) % 2 ^ 32 := hmod
    rw [h1, hcast, Int.emod_eq_of_lt (by positivity) (by exact_mod_cast hNbound)]
  simp only [toUint32, hfinal, Int.toNat_natCast]

theorem reform_unsigned_id_aux (bs : List Bool) : ∀ (j : ℕ) (L : ℤ), j + bs.length ≤ 32 →
    0 ≤ L → L < 2 ^ j →
    reformAuxU bs.length (L + unsignedAux bs (msk j)) (msk j) = bs := by
  induction bs with
  | nil => intro j L h h0 hlt; rfl
  | cons b rest ih =>
      intro j L h h0 hlt
      have hlen : j + (rest.length + 1) ≤ 32 := by simpa using h
      have hT := toUint32_L_add (b :: rest) j L h h0 hlt
      have hLn : L.toNat < 2 ^ j := by
        have hc : (L.toNat : ℤ) < ((2 ^ j : ℕ) : ℤ) := by
          rw [Int.toNat_of_nonneg h0]
          push_cast
          exact hlt
        exact_mod_cast hc
      have hhead : decide (jsAnd (L + unsignedAux (b :: rest) (msk j)) (msk j) ≠ 0) = b := by
        rw [decide_jsAnd_msk _ j (by omega), hT]
        rw [Nat.testBit_to_div_mod]
        have hdiv : (L.toNat + bitsVal (b :: rest) * 2 ^ j) / 2 ^ j
            = bitsVal (b :: rest) := by
          rw [mul_comm, Nat.add_mul_div_left _ _ (Nat.pow_pos (by norm_num)),
              Nat.div_eq_of_lt hLn, Nat.zero_add]
        rw [hdiv]
        show decide (((if b then 1 else 0) + 2 * bitsVal rest) % 2 = 1) = b
        cases b
        · simp [Nat.add_mul_mod_self_left]
        · simp [Nat.add_mul_mod_self_left]
      show decide (jsAnd (L + unsignedAux (b :: rest) (msk j)) (msk j) ≠ 0)
            :: reformAuxU rest.length (L + unsignedAux (b :: rest) (msk j)) (msk (j + 1))
          = b :: rest
      rw [hhead]
      refine congrArg (fun t => b :: t) ?_
      by_cases hrest : rest = []
      · subst hrest
        rfl
      · have hrl : 1 ≤ rest.length := by
          cases rest
          · exact absurd rfl hrest
          · simp
        have hj30 : j ≤ 30 := by omega
        have hv : L + unsignedAux (b :: rest) (msk j)
            = (L + (if b then (2:ℤ) ^ j else 0)) + unsignedAux rest (msk (j + 1)) := by
          show L + ((if b then msk j else 0) + unsignedAux rest (msk (j + 1))) = _
          rw [msk_eq_pow j hj30]
          ring
        have hL0' : 0 ≤ L + (if b then (2:ℤ) ^ j else 0) := by
          have h2j : (0:ℤ) ≤ 2 ^ j := by positivity
          cases b <;> simp <;> linarith
        have hLlt' : L + (if b then (2:ℤ) ^ j else 0) < 2 ^ (j + 1) := by
          have h2 : (2:ℤ) ^ (j + 1) = 2 ^ j * 2 := by ring
          have hp : (0:ℤ) < 2 ^ j := by positivity
          cases b <;> simp <;> linarith
        rw [hv]
        exact ih (j + 1) _ (by omega) hL0' hLlt'

theorem reform_unsigned_id_aux1 (bs : List Bool) (h : bs.length ≤ 32) :
    reformAuxU bs.length (unsignedAux bs 1) 1 = bs := by
  have h0 := reform_unsigned_id_aux bs 0 0 (by omega) le_rfl (by norm_num)
  simpa [msk] using h0

/-- C6 (amended): for an *unsigned* original of any width up to 32, `copy`
returns an instance equal to the original: same width, same bit sequence,
same (unsigned) flag — and, being rebuilt from scratch by the constructor,
it shares no storage with the original.  (For signed originals the copy is
not faithful; see the counterexample.) -/
theorem c6_copy_amended (x : Binary) (hx : x.useSigned = false) (hw : x.length ≤ 32) :
    Binary.copy x = Except.ok x := by
  obtain ⟨xb, xs⟩ := x
  have hxs : xs = false := hx
  subst hxs
  have hred : Binary.copy ⟨xb, false⟩
      = Except.ok (Binary.reform ⟨List.replicate xb.length false, false⟩
          (Binary.valueOf ⟨xb, false⟩)) := rfl
  have hfin : (reformAuxU (List.replicate xb.length false).length
      (Binary.unsigned ⟨xb, false⟩) 1).reverse = xb := by
    have hlrep : (List.replicate xb.length false).length = xb.reverse.length := by simp
    rw [hlrep]
    have hbits := reform_unsigned_id_aux1 xb.reverse (by simpa [Binary.length] using hw)
    show (reformAuxU xb.reverse.length (unsignedAux xb.reverse 1) 1).reverse = xb
    rw [hbits, List.reverse_reverse]
  rw [hred, valueOf_false _ rfl, reform_false _ rfl]
  show Except.ok (⟨(reformAuxU (List.replicate xb.length false).length
      (Binary.unsigned ⟨xb, false⟩) 1).reverse, false⟩ : Binary)
    = Except.ok (⟨xb, false⟩ : Binary)
  rw [hfin]

/-- Witness for C6: copying the unsigned width-8 vector `11011010` yields
an equal instance. -/
theorem c6_copy_witness : Binary.copy b218u = Except.ok b218u :=
  c6_copy_amended b218u rfl (by decide)
